import Mathlib

/-!
Verification development for `lsgroup.py`, a single-pass directory listing
utility.  The script scans one directory, splits subdirectories into hidden
and visible groups, classifies regular files into five categories
(Image/Video, Document, Executable, Programming, Other) by extension with an
execute-bit and a MIME-guess fallback, and prints grouped listings plus a
summary table.

The embedding below models:
  * `format_size` — byte counts are modelled as exact rationals (the Python
    source divides by 1024 in floating point; the unit thresholds and the
    one-fractional-digit rendering are faithfully mirrored over `ℚ`);
  * `list_directories` — directory enumeration is modelled as an input list
    of entries (name, is-directory flag); `sorted(..., key=str.casefold)` is
    modelled as a stable insertion sort keyed by per-character lowercasing
    (Python's `casefold`/`lower` agree with per-character lowercasing on
    ASCII names);
  * `categorize_files` — file enumeration is modelled as an input list of
    entries carrying name, byte size, the execute-permission bit
    (`os.access(path, os.X_OK)`) and the MIME guess
    (`mimetypes.guess_type(path)`, an input of the model since it reads the
    platform MIME table); `defaultdict(list)` dictionaries are modelled as
    insertion-ordered association lists;
  * `display_summary` — modelled as the list of printed rows
    (category name, count, formatted total size).
-/

namespace Lsgroup

/-! ## String helpers (Python `str` operations used by the script) -/

/-- Per-character lowercasing.  Models Python `str.lower` for the ASCII
names this tool deals with. -/
def lowerStr (s : String) : String := String.mk (s.data.map Char.toLower)

/-- Models Python `str.casefold`, the sort key used by the script; on ASCII
it agrees with per-character lowercasing. -/
def casefold (s : String) : String := String.mk (s.data.map Char.toLower)

/-- Lexicographic less-or-equal on character lists by code point, with a
proper strict pre-order comparison at each position.  This is the order in
which Python's stable `sort`/`sorted` leave their sort keys. -/
def charsLe : List Char → List Char → Bool
  | [], _ => true
  | _ :: _, [] => false
  | a :: as, b :: bs => if a < b then true else if b < a then false else charsLe as bs

/-- Lexicographic less-or-equal on strings (Python string comparison by
code points). -/
def strLe (a b : String) : Bool := charsLe a.data b.data

/-- `startswithChars p s` holds when `p` is a prefix of `s` (both as
character lists). -/
def startswithChars : List Char → List Char → Bool
  | [], _ => true
  | _ :: _, [] => false
  | p :: ps, c :: cs => p == c && startswithChars ps cs

/-- Models Python `s.startswith(pre)`. -/
def startswith (s pre : String) : Bool := startswithChars pre.data s.data

/-- The suffix of a character list starting at its last `'.'`, if any. -/
def lastDotSuffix : List Char → Option (List Char)
  | [] => none
  | c :: cs =>
    match lastDotSuffix cs with
    | some s => some s
    | none => if c = '.' then some (c :: cs) else none

/-- The extension part of `os.path.splitext(name)[1]` for a bare entry name
(no path separators occur in `os.scandir` entry names): the suffix from the
last dot, except that leading dots of the name never start an extension
(`.bashrc` has no extension). -/
def splitextExt (name : String) : String :=
  match lastDotSuffix (name.data.dropWhile (fun c => c = '.')) with
  | some s => String.mk s
  | none => ""

/-- `os.path.splitext(file)[1].lower() or "(no extension)"` from the
source: the lowercased extension, or the sentinel when it is empty. -/
def extOf (name : String) : String :=
  let e := lowerStr (splitextExt name)
  if e = "" then "(no extension)" else e

/-! ## Data model -/

/-- A regular file as seen by one `os.scandir` pass: its name, its byte
size, whether `os.access(path, os.X_OK)` holds, and the result of
`mimetypes.guess_type(path)` (an environment input of the model). -/
structure FileEntry where
  name : String
  size : Nat
  execBit : Bool
  mimeGuess : Option String
deriving DecidableEq

/-- A directory-scan entry as seen by `list_directories`: a name and the
`entry.is_dir()` flag. -/
structure DirEnt where
  name : String
  isDir : Bool
deriving DecidableEq

/-- A `(file, size)` pair, the `file_info` tuple of the source. -/
abbrev FileInfo := String × Nat

/-- An insertion-ordered `defaultdict(list)` mapping extension keys to file
lists. -/
abbrev ExtBuckets := List (String × List FileInfo)

/-- The five fixed category labels. -/
inductive Category
  | imageVideo
  | document
  | executable
  | programming
  | other
deriving DecidableEq

/-- The `categories` dictionary built by `categorize_files`: four
extension-keyed groups and the flat `Other` list. -/
structure Categories where
  imageVideo : ExtBuckets
  document : ExtBuckets
  executable : ExtBuckets
  programming : ExtBuckets
  other : List FileInfo
deriving DecidableEq

/-- The initial `categories` value: all groups empty. -/
def emptyCategories : Categories := ⟨[], [], [], [], []⟩

/-! ## The fixed extension sets -/

def image_video_extensions : List String :=
  [".jpg", ".jpeg", ".png", ".gif", ".bmp", ".mp4", ".mkv", ".avi", ".mov", ".heic",
   ".webp", ".mpg", ".tiff", ".tif", ".svg", ".ico", ".raw", ".mp3", ".wav", ".flac",
   ".ogg", ".aac", ".m4a", ".wmv", ".flv", ".3gp", ".m4v", ".vob", ".rm", ".ts"]

def document_extensions : List String :=
  [".pdf", ".docx", ".doc", ".xlsx", ".xls", ".pptx", ".txt", ".epub", ".csv", ".pcap",
   ".pcapng", ".rtf", ".odt", ".ods", ".odp", ".log", ".md", ".ini", ".yaml", ".yml",
   ".tex", ".db"]

def executable_extensions : List String :=
  [".exe", ".bat", ".sh", ".py", ".pl", ".jar", ".bin", ".cmd", ".php", ".msi", ".deb",
   ".rpm", ".apk", ".dmg", ".app", ".run", ".vbs", ".ps1"]

def programming_extensions : List String :=
  [".html", ".json", ".pickle", ".sql", ".xml", ".cpp", ".c", ".h", ".hpp", ".java",
   ".js", ".jsx", ".ts", ".tsx", ".rb", ".go", ".swift", ".rs", ".kt", ".cs", ".jsp"]

/-! ## Classification -/

/-- The MIME fallback of `categorize_files` (lines 72–83), as a category
chooser: the branch structure, including the late
`application/x-executable` test, mirrors the source exactly. -/
def mimeFallback (mime : Option String) : Category :=
  match mime with
  | some mt =>
    if startswith mt "image" || startswith mt "video" then Category.imageVideo
    else if startswith mt "application" || startswith mt "text" then Category.document
    else if startswith mt "application/x-executable" then Category.executable
    else Category.other
  | none => Category.other

/-- The category `categorize_files` assigns to one file: the if/elif chain
of lines 62–83. -/
def classify (e : FileEntry) : Category :=
  let ext := extOf e.name
  if ext ∈ image_video_extensions then Category.imageVideo
  else if ext ∈ document_extensions then Category.document
  else if ext ∈ executable_extensions ∨ e.execBit = true then Category.executable
  else if ext ∈ programming_extensions then Category.programming
  else mimeFallback e.mimeGuess

/-- `categories[cat][ext].append(file_info)` on an insertion-ordered
`defaultdict(list)`: append to the list at key `k`, creating the key at the
end on first use. -/
def bucketAppend (m : ExtBuckets) (k : String) (v : FileInfo) : ExtBuckets :=
  match m with
  | [] => [(k, [v])]
  | (k', vs) :: rest =>
    if k' = k then (k', vs ++ [v]) :: rest else (k', vs) :: bucketAppend rest k v

/-- Append one file to the group of a given category, keyed by its
extension except for `Other`. -/
def appendTo (c : Categories) (k : Category) (ext : String) (fi : FileInfo) : Categories :=
  match k with
  | Category.imageVideo => { c with imageVideo := bucketAppend c.imageVideo ext fi }
  | Category.document => { c with document := bucketAppend c.document ext fi }
  | Category.executable => { c with executable := bucketAppend c.executable ext fi }
  | Category.programming => { c with programming := bucketAppend c.programming ext fi }
  | Category.other => { c with other := c.other ++ [fi] }

/-- The loop body of `categorize_files` for one regular file (lines
54–83), mirroring the source's if/elif chain and inline MIME fallback. -/
def step (c : Categories) (e : FileEntry) : Categories :=
  let ext := extOf e.name
  let fi : FileInfo := (e.name, e.size)
  if ext ∈ image_video_extensions then
    { c with imageVideo := bucketAppend c.imageVideo ext fi }
  else if ext ∈ document_extensions then
    { c with document := bucketAppend c.document ext fi }
  else if ext ∈ executable_extensions ∨ e.execBit = true then
    { c with executable := bucketAppend c.executable ext fi }
  else if ext ∈ programming_extensions then
    { c with programming := bucketAppend c.programming ext fi }
  else
    match e.mimeGuess with
    | some mt =>
      if startswith mt "image" || startswith mt "video" then
        { c with imageVideo := bucketAppend c.imageVideo ext fi }
      else if startswith mt "application" || startswith mt "text" then
        { c with document := bucketAppend c.document ext fi }
      else if startswith mt "application/x-executable" then
        { c with executable := bucketAppend c.executable ext fi }
      else
        { c with other := c.other ++ [fi] }
    | none => { c with other := c.other ++ [fi] }

/-! ## Sorting (Python's stable `sort`/`sorted` with `key=str.casefold`) -/

/-- The order induced by `key=lambda x: x[0].casefold()` on `(file, size)`
pairs. -/
def fileLe (a b : FileInfo) : Prop := strLe (casefold a.1) (casefold b.1) = true

instance fileLe.dec : DecidableRel fileLe :=
  fun _ _ => inferInstanceAs (Decidable (_ = true))

/-- The order induced by `key=str.casefold` on names. -/
def dirLe (a b : String) : Prop := strLe (casefold a) (casefold b) = true

instance dirLe.dec : DecidableRel dirLe :=
  fun _ _ => inferInstanceAs (Decidable (_ = true))

/-- `group.sort(key=lambda x: x[0].casefold())`: a stable sort of a file
list by case-folded name. -/
def sortFiles (l : List FileInfo) : List FileInfo := List.insertionSort fileLe l

/-- `sorted(names, key=str.casefold)`. -/
def sortNames (l : List String) : List String := List.insertionSort dirLe l

/-- The post-scan sorting pass of `categorize_files` (lines 85–91): every
extension bucket's list and the `Other` list are sorted in place. -/
def sortCategories (c : Categories) : Categories :=
  { imageVideo := c.imageVideo.map (fun kv => (kv.1, sortFiles kv.2))
    document := c.document.map (fun kv => (kv.1, sortFiles kv.2))
    executable := c.executable.map (fun kv => (kv.1, sortFiles kv.2))
    programming := c.programming.map (fun kv => (kv.1, sortFiles kv.2))
    other := sortFiles c.other }

/-- `categorize_files`, over the list of regular files one `os.scandir`
pass yields (in enumeration order). -/
def categorize_files (entries : List FileEntry) : Categories :=
  sortCategories (entries.foldl step emptyCategories)

/-! ## `list_directories` -/

/-- `list_directories`, over the list of entries one `os.scandir` pass
yields: keep directories, split on a leading dot, sort both groups
case-insensitively.  Returns `(hidden_dirs, visible_dirs)`. -/
def list_directories (entries : List DirEnt) : List String × List String :=
  let hidden_dirs := (entries.filter (fun e => e.isDir && startswith e.name ".")).map DirEnt.name
  let visible_dirs := (entries.filter (fun e => e.isDir && !startswith e.name ".")).map DirEnt.name
  (sortNames hidden_dirs, sortNames visible_dirs)

/-! ## `format_size` -/

/-- Round a rational to the nearest integer, ties to even — the rounding
used when rendering with one fractional digit. -/
def roundHalfEven (x : ℚ) : ℤ :=
  let f := ⌊x⌋
  let r := x - f
  if r < 1 / 2 then f
  else if 1 / 2 < r then f + 1
  else if f % 2 = 0 then f else f + 1

/-- Python's `f"{x:.1f}"`: the value with exactly one fractional digit. -/
def renderOneDec (q : ℚ) : String :=
  let n := roundHalfEven (10 * q)
  if n < 0 then "-" ++ toString ((-n) / 10) ++ "." ++ toString ((-n) % 10)
  else toString (n / 10) ++ "." ++ toString (n % 10)

/-- The `for unit in ['B', 'K', 'M', 'G']` loop of `format_size`: return at
the first unit where the running value is below 1024, else fall through to
`T`. -/
def formatSizeLoop : ℚ → List String → String
  | size, [] => renderOneDec size ++ "T"
  | size, unit :: units =>
    if size < 1024 then renderOneDec size ++ unit else formatSizeLoop (size / 1024) units

/-- `format_size` (lines 7–13), with the byte count as an exact rational. -/
def format_size (size_in_bytes : ℚ) : String :=
  formatSizeLoop size_in_bytes ["B", "K", "M", "G"]

/-! ## `display_summary` -/

/-- `sum(len(files) for files in group.values())`. -/
def bucketCount (m : ExtBuckets) : Nat := (m.map (fun kv => kv.2.length)).sum

/-- `sum(size for ext in group for _, size in group[ext])`. -/
def bucketSize (m : ExtBuckets) : Nat := (m.map (fun kv => (kv.2.map Prod.snd).sum)).sum

/-- `sum(size for _, size in group)` for the flat `Other` list. -/
def otherSize (l : List FileInfo) : Nat := (l.map Prod.snd).sum

/-- The five `(name, count, total_size)` triples `display_summary` walks,
in the dictionary's fixed insertion order. -/
def summaryEntries (c : Categories) : List (String × Nat × Nat) :=
  [("Image/Video", bucketCount c.imageVideo, bucketSize c.imageVideo),
   ("Document", bucketCount c.document, bucketSize c.document),
   ("Executable", bucketCount c.executable, bucketSize c.executable),
   ("Programming", bucketCount c.programming, bucketSize c.programming),
   ("Other", c.other.length, otherSize c.other)]

/-- `display_summary` (lines 108–117), as the list of printed rows: one
`(category, count, format_size(total))` row per category with a positive
count, in fixed order. -/
def display_summary (c : Categories) : List (String × Nat × String) :=
  (summaryEntries c).filterMap (fun row =>
    if row.2.1 > 0 then some (row.1, row.2.1, format_size (row.2.2 : ℚ)) else none)

/-! ## Derived observation functions used to state the claims -/

/-- The display name of a category. -/
def catName : Category → String
  | Category.imageVideo => "Image/Video"
  | Category.document => "Document"
  | Category.executable => "Executable"
  | Category.programming => "Programming"
  | Category.other => "Other"

/-- The fixed insertion order of the `categories` dictionary. -/
def categoryOrder : List Category :=
  [Category.imageVideo, Category.document, Category.executable,
   Category.programming, Category.other]

/-- All `(extension key, file_info)` pairs stored in an extension-keyed
group, in storage order. -/
def bucketEntries (m : ExtBuckets) : List (String × FileInfo) :=
  (m.map (fun kv => kv.2.map (fun f => (kv.1, f)))).flatten

/-- The `(key tag, file_info)` content of one category of a `Categories`
value; `Other` files are tagged with their (unused) extension so that all
five categories can be compared against the input uniformly. -/
def catTagged (c : Categories) : Category → List (String × FileInfo)
  | Category.imageVideo => bucketEntries c.imageVideo
  | Category.document => bucketEntries c.document
  | Category.executable => bucketEntries c.executable
  | Category.programming => bucketEntries c.programming
  | Category.other => c.other.map (fun fi => (extOf fi.1, fi))

/-- The input entries a given category should receive. -/
def filesOf (k : Category) (entries : List FileEntry) : List FileEntry :=
  entries.filter (fun e => classify e = k)

/-- The `(extension, (name, size))` record an input file contributes. -/
def taggedInfo (e : FileEntry) : String × FileInfo := (extOf e.name, (e.name, e.size))

/-- The extension keys of an extension-keyed group, in storage order. -/
def bucketKeys (m : ExtBuckets) : List String := m.map Prod.fst

/-- All four keyed groups of a `Categories` value have duplicate-free key
lists. -/
def keysNodup (c : Categories) : Prop :=
  (bucketKeys c.imageVideo).Nodup ∧ (bucketKeys c.document).Nodup ∧
    (bucketKeys c.executable).Nodup ∧ (bucketKeys c.programming).Nodup

/-! ## Spec-side definitions for the refinement claims -/

/-- The MIME fallback as the spec's claim C1 words it: `image`/`video` to
Image/Video, `application`/`text` to Document, anything else (including an
unguessable type) to Other — no Executable outcome. -/
def mimeFallbackSpec (mime : Option String) : Category :=
  match mime with
  | some mt =>
    if startswith mt "image" || startswith mt "video" then Category.imageVideo
    else if startswith mt "application" || startswith mt "text" then Category.document
    else Category.other
  | none => Category.other

/-- The classification precedence exactly as claim C1 words it. -/
def classifySpec (e : FileEntry) : Category :=
  let ext := extOf e.name
  if ext ∈ image_video_extensions then Category.imageVideo
  else if ext ∈ document_extensions then Category.document
  else if ext ∈ executable_extensions ∨ e.execBit = true then Category.executable
  else if ext ∈ programming_extensions then Category.programming
  else mimeFallbackSpec e.mimeGuess

/-- Unit thresholds as claim C4 words them: the power of 1024 picked by
`format_size`. -/
def kOf (b : ℚ) : Nat :=
  if b < 1024 then 0
  else if b < 1024 ^ 2 then 1
  else if b < 1024 ^ 3 then 2
  else if b < 1024 ^ 4 then 3
  else 4

/-- Unit suffix as claim C4 words it. -/
def unitOf (b : ℚ) : String :=
  if b < 1024 then "B"
  else if b < 1024 ^ 2 then "K"
  else if b < 1024 ^ 3 then "M"
  else if b < 1024 ^ 4 then "G"
  else "T"

/-- `format_size` as claim C4 words it: `b / 1024^k` rendered with one
fractional digit, then the unit decided by the thresholds. -/
def format_size_spec (b : ℚ) : String :=
  renderOneDec (b / 1024 ^ kOf b) ++ unitOf b

/-! ## Order lemmas for the casefold sort keys -/

theorem charsLe_total : ∀ as bs : List Char, charsLe as bs = true ∨ charsLe bs as = true
  | [], _ => Or.inl rfl
  | _ :: _, [] => Or.inr rfl
  | a :: as, b :: bs => by
    rcases lt_trichotomy a b with h | h | h
    · left; simp [charsLe, h]
    · subst h
      rcases charsLe_total as bs with h' | h'
      · left; simpa [charsLe] using h'
      · right; simpa [charsLe] using h'
    · right; simp [charsLe, h, asymm h]

theorem charsLe_cons (a b : Char) (as bs : List Char) :
    charsLe (a :: as) (b :: bs) =
      if a < b then true else if b < a then false else charsLe as bs := rfl

theorem charsLe_trans :
    ∀ {as bs cs : List Char}, charsLe as bs = true → charsLe bs cs = true → charsLe as cs = true
  | [], _, _, _, _ => rfl
  | _ :: _, [], _, hab, _ => by simp [charsLe] at hab
  | _ :: _, _ :: _, [], _, hbc => by simp [charsLe] at hbc
  | a :: as, b :: bs, c :: cs, hab, hbc => by
    rw [charsLe_cons] at hab hbc ⊢
    rcases lt_trichotomy a b with h1 | h1 | h1
    · rcases lt_trichotomy b c with h2 | h2 | h2
      · rw [if_pos (lt_trans h1 h2)]
      · subst h2; rw [if_pos h1]
      · rw [if_neg (asymm h2), if_pos h2] at hbc; exact absurd hbc (by simp)
    · subst h1
      rcases lt_trichotomy a c with h2 | h2 | h2
      · rw [if_pos h2]
      · subst h2
        rw [if_neg (lt_irrefl a), if_neg (lt_irrefl a)] at hab hbc ⊢
        exact charsLe_trans hab hbc
      · rw [if_neg (asymm h2), if_pos h2] at hbc; exact absurd hbc (by simp)
    · rw [if_neg (asymm h1), if_pos h1] at hab; exact absurd hab (by simp)

theorem fileLe_total (a b : FileInfo) : fileLe a b ∨ fileLe b a := charsLe_total _ _

theorem fileLe_trans {a b c : FileInfo} (hab : fileLe a b) (hbc : fileLe b c) : fileLe a c :=
  charsLe_trans hab hbc

theorem dirLe_total (a b : String) : dirLe a b ∨ dirLe b a := charsLe_total _ _

theorem dirLe_trans {a b c : String} (hab : dirLe a b) (hbc : dirLe b c) : dirLe a c :=
  charsLe_trans hab hbc

instance : IsTotal FileInfo fileLe := ⟨fileLe_total⟩

instance : IsTrans FileInfo fileLe := ⟨fun _ _ _ => fileLe_trans⟩

instance : IsTotal String dirLe := ⟨dirLe_total⟩

instance : IsTrans String dirLe := ⟨fun _ _ _ => dirLe_trans⟩

/-! ## Prefix lemmas for the MIME fallback -/

theorem startswithChars_append {a s : List Char} (b : List Char)
    (h : startswithChars (a ++ b) s = true) : startswithChars a s = true := by
  induction a generalizing s with
  | nil => rfl
  | cons p ps ih =>
    cases s with
    | nil => simp [startswithChars] at h
    | cons c cs =>
      simp only [List.cons_append, startswithChars, Bool.and_eq_true] at h ⊢
      exact ⟨h.1, ih h.2⟩

/-- A MIME type starting with `application/x-executable` also starts with
`application`. -/
theorem startswith_x_executable {mt : String}
    (h : startswith mt "application/x-executable" = true) :
    startswith mt "application" = true := by
  have hd : ("application/x-executable" : String).data =
      ("application" : String).data ++ ("/x-executable" : String).data := by decide
  unfold startswith at h ⊢
  rw [hd] at h
  exact startswithChars_append _ h

/-- The two fallback readings agree: the late `application/x-executable`
branch of the source can never fire. -/
theorem mimeFallback_eq_spec (m : Option String) : mimeFallback m = mimeFallbackSpec m := by
  cases m with
  | none => rfl
  | some mt =>
    simp only [mimeFallback, mimeFallbackSpec]
    split_ifs with h1 h2 h3
    · rfl
    · rfl
    · exfalso
      have h4 := startswith_x_executable h3
      simp [h4] at h2
    · rfl

/-! ## The per-file loop body appends to the classified category -/

theorem step_eq (c : Categories) (e : FileEntry) :
    step c e = appendTo c (classify e) (extOf e.name) (e.name, e.size) := by
  simp only [step, classify]
  split_ifs with h1 h2 h3 h4
  · rfl
  · rfl
  · rfl
  · rfl
  · cases hm : e.mimeGuess with
    | none => rfl
    | some mt =>
      simp only [mimeFallback]
      split_ifs with g1 g2 g3 <;> rfl

/-! ## Bucket lemmas -/

theorem bucketEntries_cons (k' : String) (vs : List FileInfo) (rest : ExtBuckets) :
    bucketEntries ((k', vs) :: rest) = (vs.map fun f => (k', f)) ++ bucketEntries rest := rfl

theorem bucketAppend_cons (k' : String) (vs : List FileInfo) (rest : ExtBuckets)
    (k : String) (v : FileInfo) :
    bucketAppend ((k', vs) :: rest) k v =
      if k' = k then (k', vs ++ [v]) :: rest else (k', vs) :: bucketAppend rest k v := rfl

theorem bucketEntries_bucketAppend (m : ExtBuckets) (k : String) (v : FileInfo) :
    (bucketEntries (bucketAppend m k v)).Perm ((k, v) :: bucketEntries m) := by
  induction m with
  | nil => simp [bucketAppend, bucketEntries]
  | cons kv rest ih =>
    obtain ⟨k', vs⟩ := kv
    rw [bucketAppend_cons]
    by_cases h : k' = k
    · subst h
      rw [if_pos rfl, bucketEntries_cons, bucketEntries_cons, List.map_append,
        List.map_singleton, List.append_assoc, List.singleton_append]
      exact List.perm_middle
    · rw [if_neg h, bucketEntries_cons, bucketEntries_cons]
      exact (List.Perm.append_left _ ih).trans List.perm_middle

theorem bucketKeys_bucketAppend (m : ExtBuckets) (k : String) (v : FileInfo) :
    bucketKeys (bucketAppend m k v) =
      if k ∈ bucketKeys m then bucketKeys m else bucketKeys m ++ [k] := by
  induction m with
  | nil => simp [bucketAppend, bucketKeys]
  | cons kv rest ih =>
    obtain ⟨k', vs⟩ := kv
    by_cases h : k' = k
    · subst h
      simp [bucketAppend, bucketKeys, List.mem_cons]
    · simp only [bucketAppend, if_neg h, bucketKeys, List.map_cons, List.mem_cons]
      have hne : ¬k = k' := fun hk => h hk.symm
      simp only [hne, false_or]
      rw [show (bucketAppend rest k v).map Prod.fst = bucketKeys (bucketAppend rest k v) from rfl,
        ih]
      by_cases hk : k ∈ List.map Prod.fst rest <;> simp [bucketKeys, hk]

theorem nodup_bucketKeys_bucketAppend {m : ExtBuckets} (k : String) (v : FileInfo)
    (h : (bucketKeys m).Nodup) : (bucketKeys (bucketAppend m k v)).Nodup := by
  rw [bucketKeys_bucketAppend]
  by_cases hk : k ∈ bucketKeys m
  · simpa [hk] using h
  · simpa [hk, List.nodup_append] using h

/-! ## Content of each category through the scan -/

theorem catTagged_appendTo (c : Categories) (kc : Category) (ext : String) (fi : FileInfo)
    (hext : ext = extOf fi.1) (k : Category) :
    (catTagged (appendTo c kc ext fi) k).Perm
      ((if kc = k then [(ext, fi)] else []) ++ catTagged c k) := by
  cases kc <;> cases k <;>
    simp only [appendTo, catTagged, reduceCtorEq, if_pos rfl, if_neg, List.nil_append,
      List.singleton_append, List.map_append, List.map_cons, List.map_nil, List.append_nil] <;>
    first
      | exact List.Perm.refl _
      | exact bucketEntries_bucketAppend _ _ _
      | (rw [hext]; exact (List.perm_middle).trans (by simp))

theorem catTagged_step (c : Categories) (e : FileEntry) (k : Category) :
    (catTagged (step c e) k).Perm
      ((if classify e = k then [taggedInfo e] else []) ++ catTagged c k) := by
  rw [step_eq]
  have h := catTagged_appendTo c (classify e) (extOf e.name) (e.name, e.size) rfl k
  simpa [taggedInfo] using h

theorem catTagged_empty (k : Category) : catTagged emptyCategories k = [] := by
  cases k <;> rfl

theorem catTagged_foldl (es : List FileEntry) :
    ∀ (c : Categories) (k : Category),
      (catTagged (es.foldl step c) k).Perm (catTagged c k ++ (filesOf k es).map taggedInfo) := by
  induction es with
  | nil => intro c k; simp [filesOf]
  | cons e es ih =>
    intro c k
    have h1 : (catTagged ((e :: es).foldl step c) k).Perm
        (catTagged (step c e) k ++ (filesOf k es).map taggedInfo) := ih (step c e) k
    have h2 := catTagged_step c e k
    by_cases hc : classify e = k
    · have hf : filesOf k (e :: es) = e :: filesOf k es := by
        simp [filesOf, List.filter_cons, hc]
      rw [hf, List.map_cons]
      refine h1.trans ?_
      refine (h2.append_right _).trans ?_
      rw [if_pos hc, List.singleton_append, List.cons_append]
      exact List.perm_middle.symm
    · have hf : filesOf k (e :: es) = filesOf k es := by
        simp [filesOf, List.filter_cons, hc]
      rw [hf]
      refine h1.trans ?_
      refine (h2.append_right _).trans ?_
      simp [hc]

/-! ## The sorting pass permutes every group in place -/

theorem bucketEntries_map_sortFiles (m : ExtBuckets) :
    (bucketEntries (m.map fun kv => (kv.1, sortFiles kv.2))).Perm (bucketEntries m) := by
  induction m with
  | nil => rfl
  | cons kv rest ih =>
    obtain ⟨k', vs⟩ := kv
    rw [List.map_cons, bucketEntries_cons, bucketEntries_cons]
    exact List.Perm.append ((List.perm_insertionSort fileLe vs).map _) ih

theorem catTagged_sortCategories (c : Categories) (k : Category) :
    (catTagged (sortCategories c) k).Perm (catTagged c k) := by
  cases k with
  | other => exact (List.perm_insertionSort fileLe c.other).map _
  | imageVideo => exact bucketEntries_map_sortFiles c.imageVideo
  | document => exact bucketEntries_map_sortFiles c.document
  | executable => exact bucketEntries_map_sortFiles c.executable
  | programming => exact bucketEntries_map_sortFiles c.programming

/-- The central accounting fact: each category of `categorize_files` holds
exactly the input files the if/elif chain classifies into it, each tagged
with its own extension key. -/
theorem catTagged_categorize (es : List FileEntry) (k : Category) :
    (catTagged (categorize_files es) k).Perm ((filesOf k es).map taggedInfo) := by
  refine (catTagged_sortCategories _ k).trans ?_
  have h := catTagged_foldl es emptyCategories k
  rwa [catTagged_empty, List.nil_append] at h

/-! ## Counts and sizes -/

theorem bucketCount_eq (m : ExtBuckets) : bucketCount m = (bucketEntries m).length := by
  induction m with
  | nil => rfl
  | cons kv rest ih =>
    obtain ⟨k', vs⟩ := kv
    rw [bucketEntries_cons, List.length_append, List.length_map]
    simp only [bucketCount, List.map_cons, List.sum_cons] at ih ⊢
    rw [ih]

theorem bucketSize_eq (m : ExtBuckets) :
    bucketSize m = ((bucketEntries m).map (fun p => p.2.2)).sum := by
  induction m with
  | nil => rfl
  | cons kv rest ih =>
    obtain ⟨k', vs⟩ := kv
    rw [bucketEntries_cons, List.map_append, List.sum_append, List.map_map]
    simp only [bucketSize, List.map_cons, List.sum_cons, Function.comp] at ih ⊢
    rw [ih]
    rfl

theorem count_categorize (es : List FileEntry) (k : Category) :
    (catTagged (categorize_files es) k).length = (filesOf k es).length := by
  rw [(catTagged_categorize es k).length_eq, List.length_map]

theorem size_categorize (es : List FileEntry) (k : Category) :
    ((catTagged (categorize_files es) k).map (fun p => p.2.2)).sum =
      ((filesOf k es).map FileEntry.size).sum := by
  rw [((catTagged_categorize es k).map (fun p => p.2.2)).sum_eq, List.map_map]
  rfl

/-! ## Duplicate-free extension keys -/

theorem keysNodup_empty : keysNodup emptyCategories := by
  refine ⟨?_, ?_, ?_, ?_⟩ <;> exact List.nodup_nil

theorem keysNodup_appendTo {c : Categories} (kc : Category) (ext : String) (fi : FileInfo)
    (h : keysNodup c) : keysNodup (appendTo c kc ext fi) := by
  obtain ⟨h1, h2, h3, h4⟩ := h
  cases kc <;>
    exact ⟨by first | exact nodup_bucketKeys_bucketAppend _ _ h1 | exact h1,
           by first | exact nodup_bucketKeys_bucketAppend _ _ h2 | exact h2,
           by first | exact nodup_bucketKeys_bucketAppend _ _ h3 | exact h3,
           by first | exact nodup_bucketKeys_bucketAppend _ _ h4 | exact h4⟩

theorem keysNodup_foldl (es : List FileEntry) :
    ∀ c : Categories, keysNodup c → keysNodup (es.foldl step c) := by
  induction es with
  | nil => exact fun c h => h
  | cons e es ih =>
    intro c h
    rw [List.foldl_cons, step_eq]
    exact ih _ (keysNodup_appendTo _ _ _ h)

theorem bucketKeys_map_sortFiles (m : ExtBuckets) :
    bucketKeys (m.map fun kv => (kv.1, sortFiles kv.2)) = bucketKeys m := by
  induction m with
  | nil => rfl
  | cons kv rest ih => simp [bucketKeys]

theorem keysNodup_sortCategories {c : Categories} (h : keysNodup c) :
    keysNodup (sortCategories c) := by
  obtain ⟨h1, h2, h3, h4⟩ := h
  refine ⟨?_, ?_, ?_, ?_⟩
  · show (bucketKeys (c.imageVideo.map fun kv => (kv.1, sortFiles kv.2))).Nodup
    rw [bucketKeys_map_sortFiles]; exact h1
  · show (bucketKeys (c.document.map fun kv => (kv.1, sortFiles kv.2))).Nodup
    rw [bucketKeys_map_sortFiles]; exact h2
  · show (bucketKeys (c.executable.map fun kv => (kv.1, sortFiles kv.2))).Nodup
    rw [bucketKeys_map_sortFiles]; exact h3
  · show (bucketKeys (c.programming.map fun kv => (kv.1, sortFiles kv.2))).Nodup
    rw [bucketKeys_map_sortFiles]; exact h4

theorem keysNodup_categorize (es : List FileEntry) : keysNodup (categorize_files es) :=
  keysNodup_sortCategories (keysNodup_foldl es emptyCategories keysNodup_empty)

/-! ## Sortedness of the produced lists -/

theorem sorted_sortFiles (l : List FileInfo) : List.Sorted fileLe (sortFiles l) :=
  List.sorted_insertionSort fileLe l

/-! ## Extension extraction on dot-files -/

theorem dropWhile_dot_of_no_dot {l : List Char} (h : ∀ c ∈ l, c ≠ '.') :
    l.dropWhile (fun c => c = '.') = l := by
  cases l with
  | nil => rfl
  | cons a l =>
    rw [List.dropWhile_cons]
    simp [h a (List.mem_cons_self a l)]

theorem lastDotSuffix_eq_none {l : List Char} (h : ∀ c ∈ l, c ≠ '.') :
    lastDotSuffix l = none := by
  induction l with
  | nil => rfl
  | cons a l ih =>
    simp only [lastDotSuffix]
    rw [ih (fun c hc => h c (List.mem_cons_of_mem _ hc))]
    simp [h a (List.mem_cons_self a l)]

/-! ## Claim theorems -/

/-- C1: for every regular file, `categorize_files` assigns the category by
the exact precedence the claim states — the four extension sets with the
execute-bit escape, then the MIME guess, where `image`/`video` prefixes
give Image/Video, `application`/`text` prefixes give Document, and
everything else (no guessable type included) lands in Other. -/
theorem classify_follows_claimed_precedence : ∀ e : FileEntry, classify e = classifySpec e := by
  intro e
  simp only [classify, classifySpec, mimeFallback_eq_spec]

/-- C2: every scanned file is appended to exactly one of the five
categories and, in a keyed category, under exactly one extension key — its
own: the tagged content of each category is a permutation of the files the
deterministic classifier sends there, and the key lists are
duplicate-free. -/
theorem categorize_files_partition (es : List FileEntry) :
    (∀ k : Category,
        (catTagged (categorize_files es) k).Perm ((filesOf k es).map taggedInfo)) ∧
      keysNodup (categorize_files es) :=
  ⟨fun k => catTagged_categorize es k, keysNodup_categorize es⟩

/-- C3: the `application/x-executable` branch of the MIME fallback is
unreachable — the fallback never yields category Executable, for any
guessed type (or none at all). -/
theorem mime_fallback_never_executable :
    ∀ m : Option String, mimeFallback m ≠ Category.executable := by
  intro m
  rw [mimeFallback_eq_spec]
  cases m with
  | none => simp [mimeFallbackSpec]
  | some mt =>
    simp only [mimeFallbackSpec]
    split_ifs <;> simp

theorem mime_fallback_never_executable_witness :
    mimeFallback (some "application/x-executable") ≠ Category.executable :=
  mime_fallback_never_executable (some "application/x-executable")

/-- C4: `format_size` picks the unit by the 1024-power thresholds the claim
states and renders `b / 1024^k` with one fractional digit. -/
theorem format_size_matches_thresholds (b : ℚ) (_h : 0 ≤ b) :
    format_size b = format_size_spec b := by
  have p1 : (0 : ℚ) < 1024 := by norm_num
  have v2 : b / 1024 / 1024 = b / 1024 ^ (2 : ℕ) := by rw [div_div]; norm_num
  have v3 : b / 1024 / 1024 / 1024 = b / 1024 ^ (3 : ℕ) := by rw [div_div, div_div]; norm_num
  have v4 : b / 1024 / 1024 / 1024 / 1024 = b / 1024 ^ (4 : ℕ) := by
    rw [div_div, div_div, div_div]; norm_num
  have e2 : b / 1024 < 1024 ↔ b < 1024 ^ 2 := by rw [div_lt_iff₀ p1]; norm_num
  have e3 : b / 1024 / 1024 < 1024 ↔ b < 1024 ^ 3 := by
    rw [div_lt_iff₀ p1, div_lt_iff₀ p1]; norm_num
  have e4 : b / 1024 / 1024 / 1024 < 1024 ↔ b < 1024 ^ 4 := by
    rw [div_lt_iff₀ p1, div_lt_iff₀ p1, div_lt_iff₀ p1]; norm_num
  simp only [format_size, formatSizeLoop, format_size_spec, kOf, unitOf]
  by_cases h0 : b < 1024
  · rw [if_pos h0, if_pos h0, if_pos h0, pow_zero, div_one]
  · rw [if_neg h0, if_neg h0, if_neg h0]
    by_cases h1 : b / 1024 < 1024
    · rw [if_pos h1, if_pos (e2.mp h1), if_pos (e2.mp h1), pow_one]
    · rw [if_neg h1, if_neg (fun hh => h1 (e2.mpr hh)), if_neg (fun hh => h1 (e2.mpr hh))]
      by_cases h2 : b / 1024 / 1024 < 1024
      · rw [if_pos h2, if_pos (e3.mp h2), if_pos (e3.mp h2), v2]
      · rw [if_neg h2, if_neg (fun hh => h2 (e3.mpr hh)), if_neg (fun hh => h2 (e3.mpr hh))]
        by_cases h3 : b / 1024 / 1024 / 1024 < 1024
        · rw [if_pos h3, if_pos (e4.mp h3), if_pos (e4.mp h3), v3]
        · rw [if_neg h3, if_neg (fun hh => h3 (e4.mpr hh)),
            if_neg (fun hh => h3 (e4.mpr hh)), v4]

theorem format_size_matches_thresholds_witness :
    (0 : ℚ) ≤ 2048 ∧ format_size 2048 = format_size_spec 2048 :=
  ⟨by decide, format_size_matches_thresholds 2048 (by decide)⟩

/-- C5: after `categorize_files` returns, every per-extension bucket of the
four keyed categories is sorted case-insensitively by filename, and so is
the flat Other list. -/
theorem categorize_files_sorted (es : List FileEntry) :
    (∀ kv ∈ (categorize_files es).imageVideo, List.Sorted fileLe kv.2) ∧
      (∀ kv ∈ (categorize_files es).document, List.Sorted fileLe kv.2) ∧
      (∀ kv ∈ (categorize_files es).executable, List.Sorted fileLe kv.2) ∧
      (∀ kv ∈ (categorize_files es).programming, List.Sorted fileLe kv.2) ∧
      List.Sorted fileLe (categorize_files es).other := by
  refine ⟨?_, ?_, ?_, ?_, sorted_sortFiles _⟩ <;>
    · intro kv hkv
      rcases List.mem_map.1 hkv with ⟨kv', _, rfl⟩
      exact sorted_sortFiles _

theorem categorize_files_sorted_witness :
    (".jpg", [("a.JPG", 2), ("b.JPG", 1)]) ∈
        (categorize_files [⟨"b.JPG", 1, false, none⟩, ⟨"a.JPG", 2, false, none⟩]).imageVideo ∧
      List.Sorted fileLe [("a.JPG", 2), ("b.JPG", 1)] :=
  ⟨by decide,
    (categorize_files_sorted [⟨"b.JPG", 1, false, none⟩, ⟨"a.JPG", 2, false, none⟩]).1
      (".jpg", [("a.JPG", 2), ("b.JPG", 1)]) (by decide)⟩

/-- C6: the summary printed by `display_summary` has one row per non-empty
category, in the fixed order Image/Video, Document, Executable,
Programming, Other; each row's count is the number of files classified
into that category and its total is the sum of their sizes, rendered by
`format_size`. -/
theorem display_summary_rows (es : List FileEntry) :
    display_summary (categorize_files es) =
      categoryOrder.filterMap (fun k =>
        if (filesOf k es).length > 0 then
          some (catName k, (filesOf k es).length,
            format_size (((filesOf k es).map FileEntry.size).sum : ℚ))
        else none) := by
  have n1 : bucketCount (categorize_files es).imageVideo =
      (filesOf Category.imageVideo es).length :=
    (bucketCount_eq _).trans (count_categorize es Category.imageVideo)
  have n2 : bucketCount (categorize_files es).document =
      (filesOf Category.document es).length :=
    (bucketCount_eq _).trans (count_categorize es Category.document)
  have n3 : bucketCount (categorize_files es).executable =
      (filesOf Category.executable es).length :=
    (bucketCount_eq _).trans (count_categorize es Category.executable)
  have n4 : bucketCount (categorize_files es).programming =
      (filesOf Category.programming es).length :=
    (bucketCount_eq _).trans (count_categorize es Category.programming)
  have n5 : (categorize_files es).other.length = (filesOf Category.other es).length := by
    have h5 := count_categorize es Category.other
    rwa [show catTagged (categorize_files es) Category.other =
        (categorize_files es).other.map (fun fi => (extOf fi.1, fi)) from rfl,
      List.length_map] at h5
  have s1 : bucketSize (categorize_files es).imageVideo =
      ((filesOf Category.imageVideo es).map FileEntry.size).sum :=
    (bucketSize_eq _).trans (size_categorize es Category.imageVideo)
  have s2 : bucketSize (categorize_files es).document =
      ((filesOf Category.document es).map FileEntry.size).sum :=
    (bucketSize_eq _).trans (size_categorize es Category.document)
  have s3 : bucketSize (categorize_files es).executable =
      ((filesOf Category.executable es).map FileEntry.size).sum :=
    (bucketSize_eq _).trans (size_categorize es Category.executable)
  have s4 : bucketSize (categorize_files es).programming =
      ((filesOf Category.programming es).map FileEntry.size).sum :=
    (bucketSize_eq _).trans (size_categorize es Category.programming)
  have s5 : otherSize (categorize_files es).other =
      ((filesOf Category.other es).map FileEntry.size).sum := by
    have h5 := size_categorize es Category.other
    rw [show catTagged (categorize_files es) Category.other =
        (categorize_files es).other.map (fun fi => (extOf fi.1, fi)) from rfl,
      List.map_map] at h5
    exact h5
  unfold display_summary summaryEntries categoryOrder
  rw [n1, n2, n3, n4, n5, s1, s2, s3, s4, s5]
  rfl

/-- C7: every immediate subdirectory lands in exactly one of the two lists
`list_directories` returns — the hidden one exactly when its name starts
with a dot — and both lists are sorted case-insensitively. -/
theorem list_directories_partition_sorted (entries : List DirEnt) :
    ((list_directories entries).1).Perm
        ((entries.filter (fun e => e.isDir && startswith e.name ".")).map DirEnt.name) ∧
      ((list_directories entries).2).Perm
        ((entries.filter (fun e => e.isDir && !startswith e.name ".")).map DirEnt.name) ∧
      List.Sorted dirLe (list_directories entries).1 ∧
      List.Sorted dirLe (list_directories entries).2 :=
  ⟨List.perm_insertionSort dirLe _, List.perm_insertionSort dirLe _,
    List.sorted_insertionSort dirLe _, List.sorted_insertionSort dirLe _⟩

/-- C8 counterexample: two enumerations of the same set of files (the same
names, sizes and permission bits, in swapped order) yield different
categorized output: `A.txt` and `a.txt` casefold equally, so the stable
bucket sort keeps them in enumeration order. -/
theorem categorize_files_order_dependent :
    ([⟨"A.txt", 1, false, none⟩, ⟨"a.txt", 2, false, none⟩] : List FileEntry).Perm
        [⟨"a.txt", 2, false, none⟩, ⟨"A.txt", 1, false, none⟩] ∧
      categorize_files [⟨"A.txt", 1, false, none⟩, ⟨"a.txt", 2, false, none⟩] ≠
        categorize_files [⟨"a.txt", 2, false, none⟩, ⟨"A.txt", 1, false, none⟩] :=
  ⟨List.Perm.swap _ _ _, by decide⟩

/-- C8 (amended): a rescan of the same enumeration is identical because
`categorize_files` is a pure function; when only the enumeration order
changes, every category still holds the same multiset of
(extension key, filename, size) records. -/
theorem categorize_files_perm_invariant (es1 es2 : List FileEntry) (h : es1.Perm es2)
    (k : Category) :
    (catTagged (categorize_files es1) k).Perm (catTagged (categorize_files es2) k) :=
  (catTagged_categorize es1 k).trans
    (((h.filter _).map taggedInfo).trans (catTagged_categorize es2 k).symm)

theorem categorize_files_perm_invariant_witness :
    ([⟨"b.png", 1, false, none⟩, ⟨"a.jpg", 2, false, none⟩] : List FileEntry).Perm
        [⟨"a.jpg", 2, false, none⟩, ⟨"b.png", 1, false, none⟩] ∧
      (catTagged (categorize_files [⟨"b.png", 1, false, none⟩, ⟨"a.jpg", 2, false, none⟩])
          Category.imageVideo).Perm
        (catTagged (categorize_files [⟨"a.jpg", 2, false, none⟩, ⟨"b.png", 1, false, none⟩])
          Category.imageVideo) :=
  ⟨List.Perm.swap _ _ _,
    categorize_files_perm_invariant _ _ (List.Perm.swap _ _ _) Category.imageVideo⟩

/-- C9: files are not split into a hidden group; a name that is a single
leading dot with no later dot gets the empty extension from `splitext`,
hence the `(no extension)` sentinel, and falls through to the execute-bit,
MIME-guess or Other classification. -/
theorem dotfile_gets_no_extension_sentinel (s : String) (hnd : ∀ c ∈ s.data, c ≠ '.')
    (e : FileEntry) (hname : e.name = "." ++ s) :
    extOf e.name = "(no extension)" ∧
      classify e =
        if e.execBit = true then Category.executable else mimeFallback e.mimeGuess := by
  have hdata : ("." ++ s).data = '.' :: s.data := by
    rw [String.data_append]; rfl
  have hstep : ('.' :: s.data).dropWhile (fun c => c = '.') = s.data := by
    rw [List.dropWhile_cons]
    simp [dropWhile_dot_of_no_dot hnd]
  have hsplit : splitextExt ("." ++ s) = "" := by
    unfold splitextExt
    rw [hdata, hstep, lastDotSuffix_eq_none hnd]
  have hext : extOf e.name = "(no extension)" := by
    rw [hname]
    unfold extOf
    rw [hsplit]
    rfl
  refine ⟨hext, ?_⟩
  have m1 : ("(no extension)" : String) ∉ image_video_extensions := by decide
  have m2 : ("(no extension)" : String) ∉ document_extensions := by decide
  have m3 : ("(no extension)" : String) ∉ executable_extensions := by decide
  have m4 : ("(no extension)" : String) ∉ programming_extensions := by decide
  simp only [classify, hext]
  by_cases hb : e.execBit = true
  · rw [if_neg m1, if_neg m2, if_pos (Or.inr hb), if_pos hb]
  · rw [if_neg m1, if_neg m2, if_neg ?_, if_neg m4, if_neg hb]
    rintro (h | h)
    · exact m3 h
    · exact hb h

theorem dotfile_gets_no_extension_sentinel_witness :
    (∀ c ∈ ("bashrc" : String).data, c ≠ '.') ∧
      ((".bashrc" : String) = "." ++ "bashrc") ∧
      (extOf (FileEntry.mk ".bashrc" 7 false none).name = "(no extension)" ∧
        classify (FileEntry.mk ".bashrc" 7 false none) =
          if (FileEntry.mk ".bashrc" 7 false none).execBit = true then Category.executable
          else mimeFallback (FileEntry.mk ".bashrc" 7 false none).mimeGuess) :=
  ⟨by decide, by decide,
    dotfile_gets_no_extension_sentinel "bashrc" (by decide)
      (FileEntry.mk ".bashrc" 7 false none) (by decide)⟩

/-- C10: a file routed to Image/Video or Document by the MIME fallback is
appended under its own (unmatched, possibly sentinel) extension key, so the
keyed categories are not restricted to keys from their fixed extension
sets. -/
theorem mime_fallback_uses_raw_extension_key (e : FileEntry) (c : Categories)
    (h1 : extOf e.name ∉ image_video_extensions)
    (h2 : extOf e.name ∉ document_extensions)
    (h3 : extOf e.name ∉ executable_extensions)
    (h4 : e.execBit = false)
    (h5 : extOf e.name ∉ programming_extensions) :
    (mimeFallback e.mimeGuess = Category.imageVideo →
        step c e =
          { c with imageVideo := bucketAppend c.imageVideo (extOf e.name) (e.name, e.size) }) ∧
      (mimeFallback e.mimeGuess = Category.document →
        step c e =
          { c with document := bucketAppend c.document (extOf e.name) (e.name, e.size) }) := by
  have hc3 : ¬(extOf e.name ∈ executable_extensions ∨ e.execBit = true) := by
    rintro (h | h)
    · exact h3 h
    · rw [h4] at h; simp at h
  have hcl : classify e = mimeFallback e.mimeGuess := by
    simp only [classify]
    rw [if_neg h1, if_neg h2, if_neg hc3, if_neg h5]
  constructor <;> intro hm <;> rw [step_eq, hcl, hm] <;> rfl

theorem mime_fallback_uses_raw_extension_key_witness :
    (extOf "readme" ∉ image_video_extensions ∧ extOf "readme" ∉ document_extensions ∧
        extOf "readme" ∉ executable_extensions ∧ extOf "readme" ∉ programming_extensions) ∧
      (mimeFallback (some "text/plain") = Category.document →
        step emptyCategories (FileEntry.mk "readme" 5 false (some "text/plain")) =
          { emptyCategories with
              document := bucketAppend emptyCategories.document (extOf "readme") ("readme", 5) }) ∧
      (categorize_files [FileEntry.mk "readme" 5 false (some "text/plain")]).document =
        [("(no extension)", [("readme", 5)])] :=
  ⟨by decide,
    (mime_fallback_uses_raw_extension_key (FileEntry.mk "readme" 5 false (some "text/plain"))
        emptyCategories (by decide) (by decide) (by decide) rfl (by decide)).2,
    by decide⟩

end Lsgroup
